import Mathlib

/-!
# Verification of the tic-tac-toe game engine

Shallow embedding of the core game engine of the `tictactoe` repository
(`tictactoe/board.py`, `tictactoe/patterns.py`, `tictactoe/players.py`,
token handling from `tictactoe/screens.py`), together with proofs about
the board operations, the computer strategies, and full Hard-vs-Hard
self-play.

Conventions of the embedding:
* a board cell holds a Python string: the cell's own digit (`"0"`..`"8"`)
  when unoccupied, or a player token;
* Python dictionary keys (`int` or `str`) become the sum type `Key`;
  Python `int(key)` becomes `pyInt`, including parsing of signed digit
  strings, and Python list indexing (with its negative-index wrap-around)
  becomes `pyNormIdx`;
* exceptions become explicit error values (`Err`); `Board.__setitem__`
  becomes `setitem`, returning the (possibly unchanged) board together
  with an optional error, mirroring the fact that the Python method
  raises before performing any mutation;
* `random.Random.choice` becomes explicit nondeterminism: a strategy
  produces a `MoveReq` (either a determined space or a list to choose
  from), and a run of the game is parameterized by arbitrary entropy
  functions, so that theorems quantified over the entropy cover every
  possible seed of the Python PRNG.
-/

namespace TicTacToe

/-- A Python dictionary/list key as used by `Board.__getitem__`:
either an `int` or a `str`. -/
inductive Key where
  | i (n : Int)
  | s (st : String)
deriving DecidableEq, Repr

/-- The exception types of `tictactoe/exceptions.py` that the board and
player code can raise. -/
inductive Err where
  | keyNotOnBoard
  | spotAlreadySelected
  | spotTakenByOpponent
  | improperToken
deriving DecidableEq, Repr

/-- The `Move` namedtuple of `board.py`: a space (stored exactly as the
key passed to `__setitem__`, without conversion) and a token. -/
structure Mv where
  space : Key
  token : String
deriving DecidableEq, Repr

/-- The `Board` class state: the nine cells (`self.b`), the two in-play
tokens (`self.tokens`), and the move history (`self.moves`). -/
structure Board where
  b : List String
  tokens : List String
  moves : List Mv
deriving DecidableEq, Repr

/-- Source `Board.__init__`: cells hold their own digits, empty move record. -/
def initBoard (tokens : List String) : Board :=
  { b := ["0", "1", "2", "3", "4", "5", "6", "7", "8"]
    tokens := tokens
    moves := [] }

/-- Source `patterns.winning_patterns` (also `Board.winning_patterns`). -/
def winningPatterns : List (Nat × Nat × Nat) :=
  [(0, 1, 2), (3, 4, 5), (6, 7, 8),
   (0, 3, 6), (1, 4, 7), (2, 5, 8),
   (0, 4, 8), (2, 4, 6)]

/-- Source `patterns.corners`. -/
def corners : List Nat := [0, 2, 6, 8]

/-- Source `patterns.middles`. -/
def middles : List Nat := [1, 3, 5, 7]

/-- Source `patterns.make_partial_patterns`: the map from each unordered pair of
spaces of a winning triple to the completing third space.  The Python
dict iterates in insertion order and no key is inserted twice (two
triples never share a pair), so the dict is faithfully represented by
this association list in insertion order. -/
def makePairPatterns (ps : List (Nat × Nat × Nat)) : List ((Nat × Nat) × Nat) :=
  ps.flatMap (fun p => [((p.1, p.2.1), p.2.2), ((p.1, p.2.2), p.2.1), ((p.2.1, p.2.2), p.1)])

/-- Source `patterns.partial_patterns`. -/
def pairPatterns : List ((Nat × Nat) × Nat) := makePairPatterns winningPatterns

/-- Source `patterns.make_outer_patterns`: winning triples avoiding the center. -/
def makeOuterPatterns (ps : List (Nat × Nat × Nat)) : List (Nat × Nat × Nat) :=
  ps.filter (fun p => ¬(4 = p.1 ∨ 4 = p.2.1 ∨ 4 = p.2.2))

/-- Source `patterns.outer_patterns`. -/
def outerPatterns : List (Nat × Nat × Nat) := makeOuterPatterns winningPatterns

/-- Source `patterns.make_diagonal_patterns`: triples through the center whose
ends are corners. -/
def makeDiagonalPatterns (ps : List (Nat × Nat × Nat)) (cs : List Nat) :
    List (Nat × Nat × Nat) :=
  ps.filter (fun p => p.2.1 = 4 ∧ p.1 ∈ cs ∧ p.2.2 ∈ cs)

/-- Source `patterns.diagonal_patterns`. -/
def diagonalPatterns : List (Nat × Nat × Nat) :=
  makeDiagonalPatterns winningPatterns corners

/-- The value of a nonempty list of decimal digit characters. -/
def digitsVal : List Char → Option Nat
  | [] => none
  | cs => go cs 0
where
  go : List Char → Nat → Option Nat
    | [], acc => some acc
    | c :: rest, acc =>
      if c.isDigit then go rest (acc * 10 + (c.toNat - '0'.toNat)) else none

/-- Python `int(s)` on a string: an optional sign followed by digits
(whitespace and underscore forms are not needed by this repository).
`none` models the `ValueError`. -/
def pyParseInt (st : String) : Option Int :=
  match st.data with
  | '-' :: rest => (digitsVal rest).map (fun n => -(n : Int))
  | '+' :: rest => (digitsVal rest).map (fun n => (n : Int))
  | cs => (digitsVal cs).map (fun n => (n : Int))

/-- Python `int(key)` for a key that is an `int` or a `str`. -/
def pyInt (k : Key) : Option Int :=
  match k with
  | .i n => some n
  | .s st => pyParseInt st

/-- Python list indexing: indices in `[0, len)` are used directly,
indices in `[-len, 0)` wrap around, anything else is an `IndexError`
(modelled as `none`). -/
def pyNormIdx (len : Nat) (n : Int) : Option Nat :=
  if 0 ≤ n ∧ n < (len : Int) then some n.toNat
  else if -(len : Int) ≤ n ∧ n < 0 then some (n + len).toNat
  else none

/-- Direct read of a cell by its (in-range) index, as done by the pattern
scans in `board.py`/`players.py`, which only ever index with the
constants `0..8` from the pattern tables. -/
def cellAt (bd : Board) (s : Nat) : String := bd.b.getD s ""

/-- Source `Board.__getitem__`: parse the key with `int(...)`, index the cell
list; `ValueError`/`IndexError` become `KeyNotOnBoardError`. -/
def getitem (bd : Board) (k : Key) : Except Err String :=
  match pyInt k with
  | none => .error .keyNotOnBoard
  | some n =>
    match pyNormIdx bd.b.length n with
    | none => .error .keyNotOnBoard
    | some j => .ok (bd.b.getD j "")

/-- Source `Board.__setitem__`: look up the previous cell value (raising
`KeyNotOnBoardError` for bad keys), raise `SpotAlreadySelectedError` if
it already holds this token, `SpotTakenByOpponentError` if it holds an
in-play token, otherwise write the token and append a `Move` recording
the key exactly as passed.  The returned board is unchanged whenever an
error is returned, mirroring that the Python method raises before
mutating. -/
def setitem (bd : Board) (k : Key) (tok : String) : Option Err × Board :=
  match pyInt k with
  | none => (some .keyNotOnBoard, bd)
  | some n =>
    match pyNormIdx bd.b.length n with
    | none => (some .keyNotOnBoard, bd)
    | some j =>
      let prev := bd.b.getD j ""
      if prev = tok then (some .spotAlreadySelected, bd)
      else if prev ∈ bd.tokens then (some .spotTakenByOpponent, bd)
      else (none, { bd with b := bd.b.set j tok, moves := bd.moves ++ [⟨k, tok⟩] })

/-- Source `Board.is_over`: some winning triple has three equal cells. -/
def isOver (bd : Board) : Bool :=
  winningPatterns.any (fun p =>
    cellAt bd p.1 == cellAt bd p.2.1 && cellAt bd p.2.1 == cellAt bd p.2.2)

/-- Source `Board.is_tie`: every cell holds an in-play token. -/
def isTie (bd : Board) : Bool :=
  bd.b.all (fun c => bd.tokens.contains c)

/-- Source `Board.available`: the unoccupied cells, parsed back to their space
numbers (unoccupied cells hold their own digits). -/
def available (bd : Board) : List Int :=
  (bd.b.filter (fun c => !bd.tokens.contains c)).filterMap pyParseInt

/-- Source `Board.available_corners`. -/
def availableCorners (bd : Board) : List Nat :=
  corners.filter (fun s => !bd.tokens.contains (cellAt bd s))

/-- Source `Board.available_middles`. -/
def availableMiddles (bd : Board) : List Nat :=
  middles.filter (fun s => !bd.tokens.contains (cellAt bd s))

/-- Source `Computer.find_winning_move` (identical logic to
`Board.find_winning_move`): first partial pattern, in dictionary
insertion order, whose pair is fully occupied by `tok` with the
completing space unoccupied; `-1` when none. -/
def findWinningMove (bd : Board) (tok : String) : Int :=
  go pairPatterns
where
  go : List ((Nat × Nat) × Nat) → Int
    | [] => -1
    | ((s1, s2), s3) :: rest =>
      if cellAt bd s1 = tok ∧ cellAt bd s2 = tok ∧ cellAt bd s3 ∉ bd.tokens
      then (s3 : Int) else go rest

/-- Source `(set(tokens) - set(token)).pop()` for a single-character token and a
two-element token list: the remaining token.  (The Python set difference
removes exactly the mover's token; for the two distinct one-letter
tokens used by the game the difference is a singleton, so `pop` is
deterministic.) -/
def oppToken (tokens : List String) (tok : String) : String :=
  (tokens.filter (fun t => t ≠ tok)).headD ""

/-- Source `Computer.find_blocking_move`: a winning move for the opponent. -/
def findBlockingMove (bd : Board) (tok : String) : Int :=
  findWinningMove bd (oppToken bd.tokens tok)

/-- Source `Computer.find_adjacent_corner` (identical logic to
`Board.find_adjacent_corner`): scan the outer patterns; if one end holds
`tok` and the middle is open, return the other end. -/
def findAdjacentCorner (bd : Board) (tok : String) : Int :=
  go outerPatterns
where
  go : List (Nat × Nat × Nat) → Int
    | [] => -1
    | (s1, s2, s3) :: rest =>
      if cellAt bd s1 = tok ∧ cellAt bd s2 = toString s2 then (s3 : Int)
      else if cellAt bd s3 = tok ∧ cellAt bd s2 = toString s2 then (s1 : Int)
      else go rest

/-- Source `Computer.find_opposite_corner` (identical logic to
`Board.find_opposite_corner`). -/
def findOppositeCorner (bd : Board) (tok : String) : Int :=
  go diagonalPatterns
where
  go : List (Nat × Nat × Nat) → Int
    | [] => -1
    | (s1, _, s3) :: rest =>
      if cellAt bd s1 = tok then (s3 : Int)
      else if cellAt bd s3 = tok then (s1 : Int)
      else go rest

/-- The result of a strategy before the PRNG is consulted: either a
determined space, or `random.Random.choice` over a list of candidates. -/
inductive MoveReq where
  | det (s : Int)
  | rnd (l : List Int)
deriving DecidableEq, Repr

/-- Resolve a `MoveReq` against one entropy value `e`: `prng.choice(l)`
returns some element of `l` (here the element at index `e % l.length`,
so that as `e` ranges over `Nat` every element is reachable), and raises
`IndexError` on an empty list (modelled as `none`). -/
def resolveReq (r : MoveReq) (e : Nat) : Option Int :=
  match r with
  | .det s => some s
  | .rnd l => if l.isEmpty then none else some (l.getD (e % l.length) 0)

/-- How many PRNG draws a `MoveReq` consumed (each strategy branch calls
`prng.choice` at most once). -/
def consumeReq (r : MoveReq) : Nat :=
  match r with
  | .det _ => 0
  | .rnd _ => 1

/-- Source `EasyComputer.move`: a random open space. -/
def easyMoveSpec (bd : Board) : MoveReq := .rnd (available bd)

/-- Source `MediumComputer.move`: win, else block, else center if open, else a
random open space. -/
def mediumMoveSpec (tok : String) (bd : Board) : MoveReq :=
  let w := findWinningMove bd tok
  if w ≠ -1 then .det w
  else
    let bl := findBlockingMove bd tok
    if bl ≠ -1 then .det bl
    else if cellAt bd 4 = "4" then .det 4
    else .rnd (available bd)

/-- The Python membership test `move.space in patterns.corners`, where
`move.space` is the key stored by `__setitem__` and the corner list holds
`int`s: a `str` key is never equal to an `int`, so it never passes. -/
def keyInCorners (k : Key) : Bool :=
  match k with
  | .i n => corners.any (fun c => (c : Int) == n)
  | .s _ => false

/-- Source `HardComputer._optimal_first_turn_strategy` (even move counts). -/
def hardFirstTurn (tok : String) (bd : Board) (turn : Nat) : MoveReq :=
  if turn = 0 then .rnd ((availableCorners bd).map Int.ofNat)
  else if turn = 2 then
    if cellAt bd 4 ≠ "4" then .det (findOppositeCorner bd tok)
    else .det (findAdjacentCorner bd tok)
  else if turn = 4 then .det 4
  else .rnd (available bd)

/-- Source `HardComputer._optimal_response_strategy` (odd move counts). -/
def hardResponse (bd : Board) (turn : Nat) : MoveReq :=
  if turn = 1 then
    if cellAt bd 4 = "4" then .det 4
    else .rnd ((availableCorners bd).map Int.ofNat)
  else if turn = 3 then
    let m1 := (bd.moves.getD 0 ⟨.i 0, ""⟩).space
    let m2 := (bd.moves.getD 2 ⟨.i 0, ""⟩).space
    if keyInCorners m1 && keyInCorners m2
    then .rnd ((availableMiddles bd).map Int.ofNat)
    else .rnd (available bd)
  else .rnd (available bd)

/-- Source `HardComputer.move`: win, else block, else dispatch on the parity of
the move count. -/
def hardMoveSpec (tok : String) (bd : Board) : MoveReq :=
  let w := findWinningMove bd tok
  if w ≠ -1 then .det w
  else
    let bl := findBlockingMove bd tok
    if bl ≠ -1 then .det bl
    else
      let turn := bd.moves.length
      if turn % 2 = 0 then hardFirstTurn tok bd turn
      else hardResponse bd turn

/-- A `Computer` player: display label, token, and the per-instance
seeded PRNG.  `random.Random(seed)` produces a stream of values that is a
deterministic function of the seed; the stream is modelled by the
`entropy` function together with the count `k` of draws made so far, and
two computers built with identical seeds have identical `entropy` and
`k`. -/
structure Computer where
  label : String
  token : String
  entropy : Nat → Nat
  k : Nat

/-- The move chosen by an `EasyComputer` on a board. -/
def easyChoose (c : Computer) (bd : Board) : Option Int :=
  resolveReq (easyMoveSpec bd) (c.entropy c.k)

/-- The move chosen by a `MediumComputer` on a board. -/
def mediumChoose (c : Computer) (bd : Board) : Option Int :=
  resolveReq (mediumMoveSpec c.token bd) (c.entropy c.k)

/-- The move chosen by a `HardComputer` on a board. -/
def hardChoose (c : Computer) (bd : Board) : Option Int :=
  resolveReq (hardMoveSpec c.token bd) (c.entropy c.k)

/-- Source `string.ascii_uppercase`. -/
def asciiUppercase : String := "ABCDEFGHIJKLMNOPQRSTUVWXYZ"

/-- Does `pre` start the list `l`? (building block for the Python `in`
substring test). -/
def startsWithCL : List Char → List Char → Bool
  | [], _ => true
  | _ :: _, [] => false
  | a :: as, b :: bs => a == b && startsWithCL as bs

/-- Python `x in s` on strings is a contiguous-substring test (with the
empty string a substring of everything). -/
def containsCL (sub : List Char) : List Char → Bool
  | [] => sub.isEmpty
  | c :: rest => startsWithCL sub (c :: rest) || containsCL sub rest

/-- Python `x in s` for strings. -/
def pyInStr (x s : String) : Bool := containsCL x.data s.data

/-- Python `str.upper()` (ASCII case mapping, which agrees with Python on
all the ASCII inputs this repository feeds it). -/
def pyUpper (s : String) : String := ⟨s.data.map Char.toUpper⟩

/-- The `Player.token` setter of `players.py`: uppercase the input, raise
`ImproperTokenError` unless the result is contained in
`string.ascii_uppercase` (a substring test), else store it. -/
def setToken (input : String) : Except Err String :=
  let t := pyUpper input
  if pyInStr t asciiUppercase then .ok t else .error .improperToken

/-- The duplicate-token rejection of `screens.TokenScreen`: the second
player's key is rejected iff its uppercasing equals the first player's
(already normalized) token. -/
def rejectsDuplicate (key oppTok : String) : Bool :=
  pyUpper key == oppTok

/-- A string that is a single uppercase ASCII letter. -/
def isUpperLetterStr (s : String) : Bool :=
  match s.data with
  | [c] => 'A' ≤ c && c ≤ 'Z'
  | _ => false

/-- Source `PlayScreen.show_computer_move`'s board update: apply the chosen
(integer) space with `place`; an exception would abort the game
(`none`). -/
def placeInt (bd : Board) (s : Int) (tok : String) : Option Board :=
  match setitem bd (.i s) tok with
  | (none, bd') => some bd'
  | (some _, _) => none

/-- The `PlayScreen.play` loop for two Hard computers (player 1 with
token `"X"`, player 2 with `"O"`), with the PRNG draws of the two
computers supplied by the entropy functions `e1`, `e2` and the draw
counts `k1`, `k2`.  `none` records that a move raised an exception.
The fuel bounds the number of `while` iterations (9 is more than the
loop can ever make on a 9-cell board). -/
def runHard (e1 e2 : Nat → Nat) : Nat → Board → Nat → Nat → Option Board
  | 0, bd, _, _ => some bd
  | fuel + 1, bd, k1, k2 =>
    if isOver bd || isTie bd then some bd
    else
      let r1 := hardMoveSpec "X" bd
      match resolveReq r1 (e1 k1) with
      | none => none
      | some s =>
        match placeInt bd s "X" with
        | none => none
        | some b1 =>
          let k1' := k1 + consumeReq r1
          if isOver b1 then some b1
          else if !isOver b1 && !isTie b1 then
            let r2 := hardMoveSpec "O" b1
            match resolveReq r2 (e2 k2) with
            | none => none
            | some s2 =>
              match placeInt b1 s2 "O" with
              | none => none
              | some b2 =>
                if isOver b2 then some b2
                else runHard e1 e2 fuel b2 k1' (k2 + consumeReq r2)
          else runHard e1 e2 fuel b1 k1' k2

/-- Check `f` on every space a `MoveReq` can resolve to (and fail on an
empty choice list, where `prng.choice` raises). -/
def allReq (r : MoveReq) (f : Int → Bool) : Bool :=
  match r with
  | .det s => f s
  | .rnd l => !l.isEmpty && l.all f

/-- Exhaustive check over every branch of Hard-vs-Hard self-play: every
reachable final position is a tie and no move ever fails.  Mirrors
`runHard` with `allReq` in place of the entropy draw. -/
def checkHard : Nat → Board → Bool
  | 0, bd => isTie bd && !isOver bd
  | fuel + 1, bd =>
    if isOver bd || isTie bd then isTie bd && !isOver bd
    else
      allReq (hardMoveSpec "X" bd) (fun s =>
        match placeInt bd s "X" with
        | none => false
        | some b1 =>
          if isOver b1 then false
          else if !isOver b1 && !isTie b1 then
            allReq (hardMoveSpec "O" b1) (fun s2 =>
              match placeInt b1 s2 "O" with
              | none => false
              | some b2 => if isOver b2 then false else checkHard fuel b2)
          else checkHard fuel b1)

/-- The boards reachable from a fresh board by successful `place` calls
that use in-play tokens (the driver applies exactly these). -/
inductive Reach (tokens : List String) : Board → Prop where
  | init : Reach tokens (initBoard tokens)
  | step {bd : Board} (k : Key) {t : String} {bd' : Board} :
      Reach tokens bd → t ∈ tokens → setitem bd k t = (none, bd') → Reach tokens bd'

/-- Structural invariant of reachable boards: every cell holds either its
own digit (unoccupied) or an in-play token. -/
def goodCells (tokens : List String) (bd : Board) : Prop :=
  ∀ i, i < 9 → cellAt bd i = toString i ∨ cellAt bd i ∈ tokens

/-- The number of occupied cells. -/
def occCount (bd : Board) : Nat :=
  ((List.range 9).filter (fun i => decide (cellAt bd i ∈ bd.tokens))).length

/-- Apply a sequence of (possibly failing) `place` requests; a failing
call leaves the board untouched, exactly as the raising Python method
does. -/
def runReqs (bd : Board) : List (Key × String) → Board
  | [] => bd
  | (k, t) :: rest => runReqs (setitem bd k t).2 rest

/-- The `Move`s recorded by the successful requests of a sequence, in
temporal order. -/
def okMoves (bd : Board) : List (Key × String) → List Mv
  | [] => []
  | (k, t) :: rest =>
    match setitem bd k t with
    | (none, bd') => ⟨k, t⟩ :: okMoves bd' rest
    | (some _, _) => okMoves bd rest

/-- The character code produced by uppercasing an ASCII letter code. -/
def upCode (n : Nat) : Nat := if 97 ≤ n ∧ n ≤ 122 then n - 32 else n

/-- A strategy result that can always be resolved (no `IndexError`) and
only ever to an open space of the board. -/
def choosesOpen (r : MoveReq) (bd : Board) : Prop :=
  ∀ e, ∃ s, resolveReq r e = some s ∧ s ∈ available bd

/-- A legal, non-full, non-won position (X at 0, O at 2, X to move) on
which the Hard strategy's turn-2 branch returns the occupied corner 2. -/
def cexBoardC2 : Board :=
  { b := ["X", "1", "O", "3", "4", "5", "6", "7", "8"]
    tokens := ["X", "O"]
    moves := [⟨.i 0, "X"⟩, ⟨.i 2, "O"⟩] }

/-- A legal position with five moves made (X at 0, 5, 7; O at 1, 3; O to
move), no win and no block for O, and the center open. -/
def cexBoardC7 : Board :=
  { b := ["X", "O", "2", "O", "4", "X", "6", "X", "8"]
    tokens := ["X", "O"]
    moves := [⟨.i 0, "X"⟩, ⟨.i 1, "O"⟩, ⟨.i 5, "X"⟩, ⟨.i 3, "O"⟩, ⟨.i 7, "X"⟩] }

/-- The intermediate position after X's opening move at 0. -/
def midBoardC2 : Board :=
  { b := ["X", "1", "2", "3", "4", "5", "6", "7", "8"]
    tokens := ["X", "O"]
    moves := [⟨.i 0, "X"⟩] }

/-- A legal position with four moves made (X at 1, 3; O at 4, 5; X to
move), no win and no block for X, and the center occupied. -/
def turn4Board : Board :=
  { b := ["0", "X", "2", "X", "O", "O", "6", "7", "8"]
    tokens := ["X", "O"]
    moves := [⟨.i 1, "X"⟩, ⟨.i 4, "O"⟩, ⟨.i 3, "X"⟩, ⟨.i 5, "O"⟩] }

/-- A position whose three moves were all placed with string keys, as the
human-input driver does (X at 0 and 8 — both corners — and O at the
center). -/
def strKeyBoard : Board :=
  { b := ["X", "1", "2", "3", "O", "5", "6", "7", "X"]
    tokens := ["X", "O"]
    moves := [⟨.s "0", "X"⟩, ⟨.s "4", "O"⟩, ⟨.s "8", "X"⟩] }

example : setToken "x" = .ok "X" := rfl
example : setToken "[" = .error .improperToken := rfl
example : setToken "1" = .error .improperToken := rfl
example : setToken "ab" = .ok "AB" := rfl
example : setToken "" = .ok "" := rfl
example : rejectsDuplicate "x" "X" = true := rfl
example : pyParseInt "-1" = some (-1) := by decide
example : pyParseInt "q" = none := by decide
example : pyParseInt "7" = some 7 := by decide
example : getitem (initBoard ["X", "O"]) (.i (-1)) = .ok "8" := rfl
example : getitem (initBoard ["X", "O"]) (.s "9") = .error .keyNotOnBoard := rfl
example : isOver (initBoard ["X", "O"]) = false := by decide
example : pairPatterns.length = 24 := by decide
example : outerPatterns = [(0,1,2), (6,7,8), (0,3,6), (2,5,8)] := by decide
example : diagonalPatterns = [(0,4,8), (2,4,6)] := by decide

/-! ## Soundness of the exhaustive self-play checker -/

theorem resolveReq_allReq {r : MoveReq} {f : Int → Bool}
    (h : allReq r f = true) (e : Nat) :
    ∃ s, resolveReq r e = some s ∧ f s = true := by
  cases r with
  | det s => exact ⟨s, rfl, h⟩
  | rnd l =>
    simp only [allReq, Bool.and_eq_true, List.all_eq_true] at h
    obtain ⟨hne, hall⟩ := h
    have hlen : 0 < l.length := by
      cases l with
      | nil => simp at hne
      | cons a as => simp
    have hidx : e % l.length < l.length := Nat.mod_lt _ hlen
    refine ⟨l.getD (e % l.length) 0, ?_, ?_⟩
    · simp only [resolveReq]
      rw [if_neg (by simpa using hne)]
    · have hmem : l.getD (e % l.length) 0 ∈ l := by
        rw [List.getD_eq_getElem l 0 hidx]
        exact List.getElem_mem hidx
      exact hall _ hmem

theorem checkHard_sound :
    ∀ (fuel : Nat) (bd : Board), checkHard fuel bd = true →
      ∀ (e1 e2 : Nat → Nat) (k1 k2 : Nat),
        ∃ bf, runHard e1 e2 fuel bd k1 k2 = some bf ∧
          isTie bf = true ∧ isOver bf = false := by
  intro fuel
  induction fuel with
  | zero =>
    intro bd h e1 e2 k1 k2
    simp only [checkHard, Bool.and_eq_true, Bool.not_eq_true'] at h
    exact ⟨bd, rfl, h.1, h.2⟩
  | succ n ih =>
    intro bd h e1 e2 k1 k2
    simp only [checkHard] at h
    simp only [runHard]
    by_cases hg : (isOver bd || isTie bd) = true
    · rw [if_pos hg] at h ⊢
      simp only [Bool.and_eq_true, Bool.not_eq_true'] at h
      exact ⟨bd, rfl, h.1, h.2⟩
    · rw [if_neg hg] at h ⊢
      obtain ⟨s, hs, hf⟩ := resolveReq_allReq h (e1 k1)
      rw [hs]
      dsimp only
      cases hp : placeInt bd s "X" with
      | none => rw [hp] at hf; exact absurd hf (by simp)
      | some b1 =>
        rw [hp] at hf
        dsimp only at hf ⊢
        by_cases hov : isOver b1 = true
        · rw [if_pos hov] at hf; exact absurd hf (by simp)
        · rw [if_neg hov] at hf
          rw [if_neg hov]
          by_cases hcond : (!isOver b1 && !isTie b1) = true
          · rw [if_pos hcond] at hf ⊢
            obtain ⟨s2, hs2, hf2⟩ := resolveReq_allReq hf (e2 k2)
            rw [hs2]
            dsimp only
            cases hp2 : placeInt b1 s2 "O" with
            | none => rw [hp2] at hf2; exact absurd hf2 (by simp)
            | some b2 =>
              rw [hp2] at hf2
              dsimp only at hf2 ⊢
              by_cases hov2 : isOver b2 = true
              · rw [if_pos hov2] at hf2; exact absurd hf2 (by simp)
              · rw [if_neg hov2] at hf2
                rw [if_neg hov2]
                exact ih b2 hf2 e1 e2 (k1 + consumeReq (hardMoveSpec "X" bd))
                  (k2 + consumeReq (hardMoveSpec "O" b1))
          · rw [if_neg hcond] at hf ⊢
            exact ih b1 hf e1 e2 (k1 + consumeReq (hardMoveSpec "X" bd)) k2

/-- C1: For every pair of seeds (modelled as arbitrary entropy streams
for the two per-instance PRNGs), a game played out by two Hard-strategy
Computer players — strictly alternating, each chosen move applied with
`place` — never raises, and always ends with `is_tie()` true and
`is_over()` false. -/
theorem c1_hard_vs_hard_always_tie (e1 e2 : Nat → Nat) :
    ∃ bf, runHard e1 e2 9 (initBoard ["X", "O"]) 0 0 = some bf ∧
      isTie bf = true ∧ isOver bf = false :=
  checkHard_sound 9 (initBoard ["X", "O"]) (by decide) e1 e2 0 0

/-! ## Determinism of seeded computers (C9) -/

/-- C9: Two Computer instances of the same difficulty created with
identical seeds (hence identical PRNG streams and draw counts) and the
same token choose identical moves on identical board input, whatever
their labels: each strategy is a deterministic function of seed, token,
and board. -/
theorem c9_same_seed_same_moves (c1 c2 : Computer) (bd : Board)
    (htok : c1.token = c2.token) (hent : c1.entropy = c2.entropy)
    (hk : c1.k = c2.k) :
    easyChoose c1 bd = easyChoose c2 bd ∧
    mediumChoose c1 bd = mediumChoose c2 bd ∧
    hardChoose c1 bd = hardChoose c2 bd := by
  unfold easyChoose mediumChoose hardChoose
  rw [htok, hent, hk]
  exact ⟨rfl, rfl, rfl⟩

theorem c9_same_seed_same_moves_witness :
    easyChoose ⟨"Computer 1", "X", fun _ => 0, 0⟩ (initBoard ["X", "O"]) =
      easyChoose ⟨"Computer 2", "X", fun _ => 0, 0⟩ (initBoard ["X", "O"]) ∧
    mediumChoose ⟨"Computer 1", "X", fun _ => 0, 0⟩ (initBoard ["X", "O"]) =
      mediumChoose ⟨"Computer 2", "X", fun _ => 0, 0⟩ (initBoard ["X", "O"]) ∧
    hardChoose ⟨"Computer 1", "X", fun _ => 0, 0⟩ (initBoard ["X", "O"]) =
      hardChoose ⟨"Computer 2", "X", fun _ => 0, 0⟩ (initBoard ["X", "O"]) :=
  c9_same_seed_same_moves _ _ _ rfl rfl rfl

/-! ## Key validity for `get` and `place` (C3) -/

theorem pyNormIdx_none_iff (n : Int) :
    pyNormIdx 9 n = none ↔ n < -9 ∨ 9 ≤ n := by
  unfold pyNormIdx
  split
  · rename_i h
    constructor
    · intro hc; exact absurd hc (by simp)
    · intro hc; omega
  · split
    · rename_i h h'
      constructor
      · intro hc; exact absurd hc (by simp)
      · intro hc; omega
    · rename_i h h'
      constructor
      · intro _; omega
      · intro _; rfl

/-- C3 (amended): `get` and `place` fail with `KeyNotOnBoard` exactly on
the keys that are non-numeric or parse to an integer outside `[-9, 8]`;
in particular keys in `[0, 8]` never raise it, but — against the
original claim — the negative keys `-9..-1` are accepted too (Python
negative indexing aliases them to spaces `9 + k`). -/
theorem c3_key_not_on_board (bd : Board) (k : Key) (t : String)
    (hlen : bd.b.length = 9) :
    (getitem bd k = .error .keyNotOnBoard ↔
      pyInt k = none ∨ ∃ n, pyInt k = some n ∧ (n < -9 ∨ 9 ≤ n)) ∧
    ((setitem bd k t).1 = some .keyNotOnBoard ↔
      pyInt k = none ∨ ∃ n, pyInt k = some n ∧ (n < -9 ∨ 9 ≤ n)) ∧
    (∀ n, pyInt k = some n → 0 ≤ n → n < 9 →
      getitem bd k ≠ .error .keyNotOnBoard ∧
      (setitem bd k t).1 ≠ some .keyNotOnBoard) := by
  unfold getitem setitem
  rw [hlen]
  cases hk : pyInt k with
  | none => simp [hk]
  | some n =>
    cases hj : pyNormIdx 9 n with
    | none =>
      have hbad : n < -9 ∨ 9 ≤ n := (pyNormIdx_none_iff n).mp hj
      refine ⟨by simp [hk, hj, hbad], by simp [hk, hj, hbad], ?_⟩
      intro m hm h0 h9
      have hnm : n = m := Option.some.inj hm
      exact absurd hbad (by omega)
    | some j =>
      have hgood : ¬(n < -9 ∨ 9 ≤ n) := by
        intro hc
        rw [(pyNormIdx_none_iff n).mpr hc] at hj
        exact Option.noConfusion hj
      simp only [hk, hj]
      refine ⟨by simp [hgood], ?_, ?_⟩
      · constructor
        · intro hc
          split at hc
          · exact absurd (Option.some.inj hc) (by decide)
          · split at hc
            · exact absurd (Option.some.inj hc) (by decide)
            · exact absurd hc (by simp)
        · intro hc
          rcases hc with hc | ⟨m, hm, hmb⟩
          · exact Option.noConfusion hc
          · have hnm : n = m := Option.some.inj hm
            exact absurd hmb (by omega)
      · intro m hm h0 h9
        refine ⟨by simp, ?_⟩
        intro hc
        split at hc
        · exact absurd (Option.some.inj hc) (by decide)
        · split at hc
          · exact absurd (Option.some.inj hc) (by decide)
          · exact absurd hc (by simp)

theorem c3_key_not_on_board_witness :
    getitem (initBoard ["X", "O"]) (.s "q") = .error .keyNotOnBoard ∧
    (setitem (initBoard ["X", "O"]) (.s "q") "X").1 = some .keyNotOnBoard ∧
    getitem (initBoard ["X", "O"]) (.i 3) ≠ .error .keyNotOnBoard := by
  have h1 := (c3_key_not_on_board (initBoard ["X", "O"]) (.s "q") "X" rfl)
  have h2 := (c3_key_not_on_board (initBoard ["X", "O"]) (.i 3) "X" rfl)
  refine ⟨?_, ?_, ?_⟩
  · exact h1.1.mpr (Or.inl (by decide))
  · exact h1.2.1.mpr (Or.inl (by decide))
  · exact (h2.2.2 3 rfl (by decide) (by decide)).1

/-- C3 counterexample: the key `-1` is negative (outside `[0, 8]`), yet
`get` returns the cell at space 8 instead of failing with
`KeyNotOnBoard`, and `place` succeeds, writing space 8. -/
theorem c3_counterexample :
    getitem (initBoard ["X", "O"]) (.i (-1)) = .ok "8" ∧
    (setitem (initBoard ["X", "O"]) (.i (-1)) "X").1 = none ∧
    (setitem (initBoard ["X", "O"]) (.i (-1)) "X").2.b =
      ["0", "1", "2", "3", "4", "5", "6", "7", "X"] :=
  ⟨rfl, rfl, rfl⟩

/-! ## `place` on a valid space (C4) -/

theorem oppToken_left {a b2 : String} (hab : a ≠ b2) : oppToken [a, b2] a = b2 := by
  simp [oppToken, Ne.symm hab]

theorem oppToken_right {a b2 : String} (hab : a ≠ b2) : oppToken [a, b2] b2 = a := by
  simp [oppToken, hab]

theorem setitem_valid (bd : Board) (t : String) (s : Nat)
    (hs : s < 9) (hlen : bd.b.length = 9) :
    setitem bd (.i (s : Int)) t =
      (if bd.b.getD s "" = t then (some .spotAlreadySelected, bd)
       else if bd.b.getD s "" ∈ bd.tokens then (some .spotTakenByOpponent, bd)
       else (none, { bd with b := bd.b.set s t, moves := bd.moves ++ [⟨.i (s : Int), t⟩] })) := by
  have hnorm : pyNormIdx bd.b.length ((s : Nat) : Int) = some s := by
    unfold pyNormIdx
    rw [hlen, if_pos (by constructor <;> omega)]
    simp
  simp only [setitem, pyInt, hnorm]

/-- C4: On a valid space with an in-play token, `place` raises
`SpotAlreadySelected` iff the space already holds that same token,
raises `SpotTakenByOpponent` iff it holds the other in-play token,
otherwise succeeds by writing the token and appending exactly one
`Move`; and a failing call leaves both the cells and the move history
completely unchanged. -/
theorem c4_place_legality (bd : Board) (a b2 t : String) (s : Nat)
    (htoks : bd.tokens = [a, b2]) (hab : a ≠ b2) (ht : t ∈ bd.tokens)
    (hs : s < 9) (hlen : bd.b.length = 9) :
    ((setitem bd (.i (s : Int)) t).1 = some .spotAlreadySelected ↔ cellAt bd s = t) ∧
    ((setitem bd (.i (s : Int)) t).1 = some .spotTakenByOpponent ↔
      cellAt bd s = oppToken bd.tokens t) ∧
    ((setitem bd (.i (s : Int)) t).1 = none ↔
      cellAt bd s ≠ t ∧ cellAt bd s ≠ oppToken bd.tokens t) ∧
    ((setitem bd (.i (s : Int)) t).1 = none →
      (setitem bd (.i (s : Int)) t).2 =
        { bd with b := bd.b.set s t, moves := bd.moves ++ [⟨.i (s : Int), t⟩] }) ∧
    ((setitem bd (.i (s : Int)) t).1 ≠ none → (setitem bd (.i (s : Int)) t).2 = bd) := by
  rw [setitem_valid bd t s hs hlen]
  rw [htoks] at ht
  have hcell : bd.b.getD s "" = cellAt bd s := rfl
  rw [hcell]
  rcases List.mem_cons.mp ht with rfl | ht'
  · -- t is the first token
    have hopp : oppToken bd.tokens t = b2 := by rw [htoks]; exact oppToken_left hab
    rw [hopp, htoks]
    generalize cellAt bd s = prev
    by_cases h1 : prev = t
    · simp [h1, hab]
    · by_cases h2 : prev = b2
      · simp [h1, h2, Ne.symm hab]
      · simp [h1, h2]
  · -- t is the second token
    have ht2 : t = b2 := List.mem_singleton.mp ht'
    subst ht2
    have hopp : oppToken bd.tokens t = a := by rw [htoks]; exact oppToken_right hab
    rw [hopp, htoks]
    generalize cellAt bd s = prev
    by_cases h1 : prev = t
    · simp [h1, Ne.symm hab]
    · by_cases h2 : prev = a
      · simp [h1, h2, hab]
      · simp [h1, h2]

theorem c4_place_legality_witness :
    ((setitem cexBoardC2 (.i ((1 : Nat) : Int)) "X").1 = some .spotAlreadySelected ↔
      cellAt cexBoardC2 1 = "X") ∧
    ((setitem cexBoardC2 (.i ((1 : Nat) : Int)) "X").1 = some .spotTakenByOpponent ↔
      cellAt cexBoardC2 1 = oppToken cexBoardC2.tokens "X") ∧
    ((setitem cexBoardC2 (.i ((1 : Nat) : Int)) "X").1 = none ↔
      cellAt cexBoardC2 1 ≠ "X" ∧ cellAt cexBoardC2 1 ≠ oppToken cexBoardC2.tokens "X") ∧
    ((setitem cexBoardC2 (.i ((1 : Nat) : Int)) "X").1 = none →
      (setitem cexBoardC2 (.i ((1 : Nat) : Int)) "X").2 =
        { cexBoardC2 with b := cexBoardC2.b.set 1 "X",
                          moves := cexBoardC2.moves ++ [⟨.i ((1 : Nat) : Int), "X"⟩] }) ∧
    ((setitem cexBoardC2 (.i ((1 : Nat) : Int)) "X").1 ≠ none →
      (setitem cexBoardC2 (.i ((1 : Nat) : Int)) "X").2 = cexBoardC2) :=
  c4_place_legality cexBoardC2 "X" "O" "X" 1 rfl (by decide) (by decide)
    (by decide) rfl

/-! ## Successful `place` calls, and raw keys in the move history (C10) -/

theorem pyNormIdx_lt {len : Nat} {n : Int} {j : Nat}
    (h : pyNormIdx len n = some j) : j < len := by
  unfold pyNormIdx at h
  split at h
  · rename_i hc
    have hj := Option.some.inj h
    omega
  · split at h
    · rename_i hc hc2
      have hj := Option.some.inj h
      omega
    · exact absurd h (by simp)

theorem setitem_ok {bd : Board} {k : Key} {t : String} {bd' : Board}
    (h : setitem bd k t = (none, bd')) :
    ∃ n j, pyInt k = some n ∧ pyNormIdx bd.b.length n = some j ∧
      bd.b.getD j "" ≠ t ∧ bd.b.getD j "" ∉ bd.tokens ∧
      bd' = { bd with b := bd.b.set j t, moves := bd.moves ++ [⟨k, t⟩] } := by
  unfold setitem at h
  cases hk : pyInt k with
  | none => rw [hk] at h; exact absurd h (by simp)
  | some n =>
    rw [hk] at h
    dsimp only at h
    cases hj : pyNormIdx bd.b.length n with
    | none => rw [hj] at h; exact absurd h (by simp)
    | some j =>
      rw [hj] at h
      dsimp only at h
      split at h
      · exact absurd h (by simp)
      · split at h
        · exact absurd h (by simp)
        · rename_i h1 h2
          have hb' := (Prod.mk.injEq _ _ _ _ ▸ h).2
          exact ⟨n, j, rfl, hj, h1, h2, hb'.symm⟩

/-- C10: `place` stores the key argument in the appended `Move` exactly
as passed, without integer conversion; the turn-3 membership test of the
Hard strategy compares `Move.space` against the integer corner list, so
it passes only when both of the opponent's recorded moves were placed
with integer keys, and on string-keyed histories (as produced by the
human-input driver) the double-corner middle-edge branch is never taken
and the strategy falls through to a random open space. -/
theorem c10_raw_keys_in_moves :
    (∀ (bd : Board) (k : Key) (t : String) (bd' : Board),
      setitem bd k t = (none, bd') → bd'.moves = bd.moves ++ [⟨k, t⟩]) ∧
    (∀ m0 m2 : Key, (keyInCorners m0 && keyInCorners m2) = true →
      (∃ n1, m0 = .i n1 ∧ n1 ∈ ([0, 2, 6, 8] : List Int)) ∧
      (∃ n2, m2 = .i n2 ∧ n2 ∈ ([0, 2, 6, 8] : List Int))) ∧
    (∀ (bd : Board) (t st1 st2 : String),
      bd.moves.length = 3 →
      (bd.moves.getD 0 ⟨.i 0, ""⟩).space = .s st1 →
      (bd.moves.getD 2 ⟨.i 0, ""⟩).space = .s st2 →
      findWinningMove bd t = -1 → findBlockingMove bd t = -1 →
      hardMoveSpec t bd = .rnd (available bd)) := by
  refine ⟨?_, ?_, ?_⟩
  · intro bd k t bd' h
    obtain ⟨n, j, _, _, _, _, hb'⟩ := setitem_ok h
    rw [hb']
  · intro m0 m2 h
    rw [Bool.and_eq_true] at h
    obtain ⟨h0, h2⟩ := h
    constructor
    · cases m0 with
      | s st => exact absurd h0 (by simp [keyInCorners])
      | i n =>
        refine ⟨n, rfl, ?_⟩
        simp only [keyInCorners, List.any_eq_true, beq_iff_eq] at h0
        obtain ⟨c, hc, hcn⟩ := h0
        have hc' : c = 0 ∨ c = 2 ∨ c = 6 ∨ c = 8 := by simpa [corners] using hc
        rcases hc' with rfl | rfl | rfl | rfl <;> rw [← hcn] <;> decide
    · cases m2 with
      | s st => exact absurd h2 (by simp [keyInCorners])
      | i n =>
        refine ⟨n, rfl, ?_⟩
        simp only [keyInCorners, List.any_eq_true, beq_iff_eq] at h2
        obtain ⟨c, hc, hcn⟩ := h2
        have hc' : c = 0 ∨ c = 2 ∨ c = 6 ∨ c = 8 := by simpa [corners] using hc
        rcases hc' with rfl | rfl | rfl | rfl <;> rw [← hcn] <;> decide
  · intro bd t st1 st2 hlen3 hm0 hm2 hw hb
    simp only [hardMoveSpec, hw, hb, hlen3]
    norm_num
    simp only [hardResponse]
    rw [hm0, hm2]
    norm_num [keyInCorners]

theorem c10_raw_keys_in_moves_witness :
    (setitem (initBoard ["X", "O"]) (.s "0") "X").2.moves =
      (initBoard ["X", "O"]).moves ++ [⟨.s "0", "X"⟩] ∧
    hardMoveSpec "O" strKeyBoard = .rnd (available strKeyBoard) := by
  constructor
  · exact c10_raw_keys_in_moves.1 (initBoard ["X", "O"]) (.s "0") "X"
      (setitem (initBoard ["X", "O"]) (.s "0") "X").2 rfl
  · exact c10_raw_keys_in_moves.2.2 strKeyBoard "O" "0" "8" rfl rfl rfl
      (by decide) (by decide)

/-! ## Token normalization and validation (C6) -/

theorem toUpper_letter_code (m : Nat) (h1 : 65 ≤ m) (h2 : m ≤ 90) :
    Char.toUpper (Char.ofNat m) = Char.ofNat m := by
  interval_cases m <;> rfl

theorem ofNat_toNat_letter (m : Nat) (h1 : 65 ≤ m) (h2 : m ≤ 90) :
    (Char.ofNat m).toNat = m := by
  interval_cases m <;> rfl

/-- C6 (amended): the token setter accepts every single ASCII letter
(normalizing to its uppercase form), rejects with `ImproperToken`
exactly the inputs whose uppercasing is not a contiguous substring of
`"ABCDEFGHIJKLMNOPQRSTUVWXYZ"` (so, against the original claim, some
multi-character inputs such as `"ab"` and the empty string are accepted
too), always stores the uppercased input on success, and the duplicate
check rejects the second player's input iff it uppercases to the first
player's stored token — so every pair of single letters with distinct
uppercase forms is accepted by both checks. -/
theorem c6_token_validation :
    (∀ n : Nat, (65 ≤ n ∧ n ≤ 90) ∨ (97 ≤ n ∧ n ≤ 122) →
      setToken (String.mk [Char.ofNat n]) = .ok (String.mk [Char.ofNat (upCode n)])) ∧
    (∀ input, setToken input = .error .improperToken ↔
      pyInStr (pyUpper input) asciiUppercase = false) ∧
    (∀ input u, setToken input = .ok u → u = pyUpper input) ∧
    (∀ key opp, rejectsDuplicate key opp = true ↔ pyUpper key = opp) ∧
    (∀ n m : Nat, 65 ≤ n → n ≤ 90 → 65 ≤ m → m ≤ 90 → n ≠ m →
      rejectsDuplicate (String.mk [Char.ofNat m]) (String.mk [Char.ofNat n]) = false) := by
  refine ⟨?_, ?_, ?_, ?_, ?_⟩
  · intro n h
    rcases h with ⟨h1, h2⟩ | ⟨h1, h2⟩ <;> interval_cases n <;> rfl
  · intro input
    unfold setToken
    cases h : pyInStr (pyUpper input) asciiUppercase <;> simp [h]
  · intro input u h
    simp only [setToken] at h
    cases hc : pyInStr (pyUpper input) asciiUppercase <;> rw [hc] at h
    · simp at h
    · simp at h
      exact h.symm
  · intro key opp
    exact beq_iff_eq
  · intro n m hn1 hn2 hm1 hm2 hnm
    have hup : pyUpper (String.mk [Char.ofNat m]) = String.mk [Char.ofNat m] := by
      show String.mk [(Char.ofNat m).toUpper] = String.mk [Char.ofNat m]
      rw [toUpper_letter_code m hm1 hm2]
    rw [rejectsDuplicate, hup]
    rw [beq_eq_false_iff_ne]
    intro hc
    have hchar : Char.ofNat m = Char.ofNat n := by
      have := congrArg String.data hc
      simpa using this
    have : m = n := by
      rw [← ofNat_toNat_letter m hm1 hm2, ← ofNat_toNat_letter n hn1 hn2, hchar]
    exact hnm this.symm

theorem c6_token_validation_witness :
    setToken (String.mk [Char.ofNat 120]) = .ok (String.mk [Char.ofNat (upCode 120)]) ∧
    rejectsDuplicate (String.mk [Char.ofNat 79]) (String.mk [Char.ofNat 88]) = false :=
  ⟨c6_token_validation.1 120 (Or.inr (by decide)),
   c6_token_validation.2.2.2.2 88 79 (by decide) (by decide) (by decide)
     (by decide) (by decide)⟩

/-- C6 counterexample: the input `"ab"` does not normalize to exactly
one uppercase letter (its normalization `"AB"` has two characters), yet
the token setter accepts it, because the Python membership test
`token in string.ascii_uppercase` is a substring test. -/
theorem c6_counterexample :
    setToken "ab" = .ok "AB" ∧ (pyUpper "ab").data.length = 2 :=
  ⟨rfl, rfl⟩

/-! ## Invariants of reachable boards -/

theorem contains_iff_mem' {l : List String} {a : String} :
    l.contains a = true ↔ a ∈ l := by
  simp [List.contains, List.elem_iff]

theorem setitem_snd_eq_or_ok (bd : Board) (k : Key) (t : String) :
    (setitem bd k t).2 = bd ∨ setitem bd k t = (none, (setitem bd k t).2) := by
  unfold setitem
  rcases pyInt k with _ | n
  · exact Or.inl rfl
  · dsimp only
    rcases pyNormIdx bd.b.length n with _ | j
    · exact Or.inl rfl
    · dsimp only
      split
      · exact Or.inl rfl
      · split
        · exact Or.inl rfl
        · exact Or.inr rfl

theorem setitem_tokens (bd : Board) (k : Key) (t : String) :
    (setitem bd k t).2.tokens = bd.tokens := by
  rcases setitem_snd_eq_or_ok bd k t with h | h
  · rw [h]
  · obtain ⟨n, j, _, _, _, _, hb'⟩ := setitem_ok h
    rw [hb']

theorem setitem_length (bd : Board) (k : Key) (t : String) :
    (setitem bd k t).2.b.length = bd.b.length := by
  rcases setitem_snd_eq_or_ok bd k t with h | h
  · rw [h]
  · obtain ⟨n, j, _, _, _, _, hb'⟩ := setitem_ok h
    rw [hb']
    exact List.length_set bd.b j t

theorem setitem_keeps_occupied (bd : Board) (k : Key) (t : String) (i : Nat)
    (hocc : cellAt bd i ∈ bd.tokens) :
    cellAt (setitem bd k t).2 i = cellAt bd i := by
  rcases setitem_snd_eq_or_ok bd k t with h | h
  · rw [h]
  · obtain ⟨n, j, _, _, _, hnotin, hb'⟩ := setitem_ok h
    rw [hb']
    have hij : i ≠ j := by
      intro hc
      rw [hc] at hocc
      exact hnotin hocc
    show (bd.b.set j t).getD i "" = bd.b.getD i ""
    rw [List.getD_eq_getElem?_getD, List.getD_eq_getElem?_getD,
      List.getElem?_set_ne (Ne.symm hij)]

theorem filter_length_flip {p q : Nat → Bool} {j : Nat} :
    ∀ (l : List Nat), l.Nodup → j ∈ l → (∀ x ∈ l, x ≠ j → p x = q x) →
      p j = false → q j = true →
      (l.filter q).length = (l.filter p).length + 1 := by
  intro l
  induction l with
  | nil => intro _ hj; exact absurd hj (List.not_mem_nil j)
  | cons a as ih =>
    intro hnd hj hpq hpj hqj
    rcases List.mem_cons.mp hj with haj | hj'
    · subst haj
      have hnotin : j ∉ as := (List.nodup_cons.mp hnd).1
      have heq : as.filter p = as.filter q := by
        apply List.filter_congr
        intro x hx
        exact hpq x (List.mem_cons_of_mem _ hx) (fun hc => hnotin (hc ▸ hx))
      simp [List.filter_cons, hpj, hqj, heq]
    · have ha : a ≠ j := by
        rintro rfl
        exact (List.nodup_cons.mp hnd).1 hj'
      have hpa : p a = q a := hpq a (List.mem_cons_self a as) ha
      have hrec := ih (List.nodup_cons.mp hnd).2 hj'
        (fun x hx hxj => hpq x (List.mem_cons_of_mem _ hx) hxj) hpj hqj
      rw [List.filter_cons, List.filter_cons, ← hpa]
      cases hcase : p a <;> simp [hrec]

/-- The fundamental invariants of reachable boards: the token list is
the one the board was created with, there are nine cells, each cell is
its own digit or an in-play token, and the number of occupied cells
equals the length of the move history. -/
theorem reach_inv {tokens : List String} {bd : Board}
    (hnd : ∀ i, i < 9 → toString i ∉ tokens) (h : Reach tokens bd) :
    bd.tokens = tokens ∧ bd.b.length = 9 ∧ goodCells tokens bd ∧
      occCount bd = bd.moves.length := by
  induction h with
  | init =>
    refine ⟨rfl, rfl, ?_, ?_⟩
    · intro i hi
      left
      interval_cases i <;> rfl
    · show (List.filter _ (List.range 9)).length = 0
      rw [List.length_eq_zero, List.filter_eq_nil_iff]
      intro i hir
      have hi : i < 9 := List.mem_range.mp hir
      have hcell : cellAt (initBoard tokens) i = toString i := by
        interval_cases i <;> rfl
      simp only [hcell, decide_eq_true_eq]
      exact hnd i hi
  | @step bd0 k t0 bd1 hr htok hset ih =>
    obtain ⟨htk, hlen, hgc, hcount⟩ := ih
    obtain ⟨n, j, hn, hj, hne, hnotin, hb'⟩ := setitem_ok hset
    have hjlt : j < 9 := hlen ▸ pyNormIdx_lt hj
    have hcells : ∀ i, i < 9 → cellAt bd1 i = if i = j then t0 else cellAt bd0 i := by
      intro i hi
      rw [hb']
      show (bd0.b.set j t0).getD i "" = _
      by_cases hij : i = j
      · subst hij
        have hlt : i < (bd0.b.set i t0).length := by
          rw [List.length_set, hlen]; exact hi
        rw [List.getD_eq_getElem _ _ hlt, List.getElem_set_self hlt, if_pos rfl]
      · rw [List.getD_eq_getElem?_getD, List.getElem?_set_ne (Ne.symm hij),
          ← List.getD_eq_getElem?_getD, if_neg hij]
        rfl
    refine ⟨by rw [hb']; exact htk, by rw [hb']; simpa using hlen, ?_, ?_⟩
    · intro i hi
      rw [hcells i hi]
      by_cases hij : i = j
      · rw [if_pos hij]; right; exact htok
      · rw [if_neg hij]; exact hgc i hi
    · have htoks' : bd1.tokens = bd0.tokens := by rw [hb']
      have hflip : occCount bd1 = occCount bd0 + 1 := by
        show (List.filter _ (List.range 9)).length =
          (List.filter _ (List.range 9)).length + 1
        apply filter_length_flip (List.range 9) (List.nodup_range 9)
          (List.mem_range.mpr hjlt)
        · intro x hx hxj
          have hxlt : x < 9 := List.mem_range.mp hx
          rw [htoks', hcells x hxlt, if_neg hxj]
        · rw [decide_eq_false_iff_not]
          exact hnotin
        · rw [htoks', hcells j hjlt, if_pos rfl, htk]
          exact decide_eq_true htok
      rw [hflip, hcount, hb']
      simp

/-- Unoccupied cells of a reachable board hold their own digits. -/
theorem open_cell_is_digit {tokens : List String} {bd : Board}
    (hgc : goodCells tokens bd) (htk : bd.tokens = tokens)
    {i : Nat} (hi : i < 9) (hopen : cellAt bd i ∉ bd.tokens) :
    cellAt bd i = toString i := by
  rcases hgc i hi with h | h
  · exact h
  · rw [htk] at hopen
    exact absurd h hopen

theorem parse_toString (i : Nat) (hi : i < 9) : pyParseInt (toString i) = some i := by
  interval_cases i <;> rfl

/-! ## Win detection on reachable boards (C5) -/

/-- C5: on every board reachable by legal placements of the two in-play
(single-letter) tokens, `is_over()` is true iff some winning triple has
its three cells equal and holding an in-play token — triples of
unoccupied cells never count, because those cells hold their distinct
own space numbers. -/
theorem c5_is_over_iff (a b2 : String) (bd : Board)
    (hla : isUpperLetterStr a = true) (hlb : isUpperLetterStr b2 = true)
    (hr : Reach [a, b2] bd) :
    isOver bd = true ↔
      ∃ s1 s2 s3, (s1, s2, s3) ∈ winningPatterns ∧
        cellAt bd s1 = cellAt bd s2 ∧ cellAt bd s2 = cellAt bd s3 ∧
        cellAt bd s1 ∈ bd.tokens := by
  have hnd : ∀ i, i < 9 → toString i ∉ [a, b2] := by
    intro i hi hc
    have hlet : isUpperLetterStr (toString i) = true := by
      rcases List.mem_cons.mp hc with hc1 | hc2
      · rw [← hc1] at hla; exact hla
      · rw [← List.mem_singleton.mp hc2] at hlb; exact hlb
    interval_cases i <;> exact absurd hlet (by decide)
  obtain ⟨htk, hlen, hgc, _⟩ := reach_inv hnd hr
  have hbounds : ∀ p ∈ winningPatterns, p.1 < 9 ∧ p.2.1 < 9 ∧ p.1 ≠ p.2.1 := by
    decide
  constructor
  · intro h
    unfold isOver at h
    rw [List.any_eq_true] at h
    obtain ⟨⟨s1, s2, s3⟩, hmem, hcond⟩ := h
    rw [Bool.and_eq_true, beq_iff_eq, beq_iff_eq] at hcond
    obtain ⟨h12, h23⟩ := hcond
    refine ⟨s1, s2, s3, hmem, h12, h23, ?_⟩
    have hb1 := hbounds _ hmem
    by_contra hopen
    have hd1 : cellAt bd s1 = toString s1 :=
      open_cell_is_digit hgc htk hb1.1 hopen
    by_cases hopen2 : cellAt bd s2 ∈ bd.tokens
    · rw [h12] at hopen; exact hopen hopen2
    · have hd2 : cellAt bd s2 = toString s2 :=
        open_cell_is_digit hgc htk hb1.2.1 hopen2
      rw [hd1, hd2] at h12
      have hps := congrArg pyParseInt h12
      rw [parse_toString s1 hb1.1, parse_toString s2 hb1.2.1] at hps
      have hss : (s1 : Int) = (s2 : Int) := Option.some.inj hps
      exact hb1.2.2 (by exact_mod_cast hss)
  · rintro ⟨s1, s2, s3, hmem, h12, h23, -⟩
    unfold isOver
    rw [List.any_eq_true]
    refine ⟨(s1, s2, s3), hmem, ?_⟩
    rw [Bool.and_eq_true, beq_iff_eq, beq_iff_eq]
    exact ⟨h12, h23⟩

theorem c5_is_over_iff_witness :
    isOver (initBoard ["X", "O"]) = true ↔
      ∃ s1 s2 s3, (s1, s2, s3) ∈ winningPatterns ∧
        cellAt (initBoard ["X", "O"]) s1 = cellAt (initBoard ["X", "O"]) s2 ∧
        cellAt (initBoard ["X", "O"]) s2 = cellAt (initBoard ["X", "O"]) s3 ∧
        cellAt (initBoard ["X", "O"]) s1 ∈ (initBoard ["X", "O"]).tokens :=
  c5_is_over_iff "X" "O" (initBoard ["X", "O"]) (by decide) (by decide) Reach.init

/-! ## The Hard strategy's late turns (C7) -/

/-- C7 (amended): on a board with at least four moves made where the
Hard player has neither a winning nor a blocking move, the strategy
returns the center space 4 unconditionally when exactly four moves have
been made (even if the center is occupied), and otherwise — at move
counts 5, 6, 7, 8, … — a uniformly random element of `available()`,
never preferring an open center. -/
theorem c7_late_turns (bd : Board) (t : String)
    (h4 : 4 ≤ bd.moves.length)
    (hw : findWinningMove bd t = -1) (hb : findBlockingMove bd t = -1) :
    hardMoveSpec t bd =
      if bd.moves.length = 4 then .det 4 else .rnd (available bd) := by
  simp only [hardMoveSpec, hw, hb]
  norm_num
  by_cases hpar : bd.moves.length % 2 = 0
  · rw [if_pos hpar]
    unfold hardFirstTurn
    have h0 : ¬bd.moves.length = 0 := by omega
    have h2 : ¬bd.moves.length = 2 := by omega
    by_cases h44 : bd.moves.length = 4
    · rw [if_neg h0, if_neg h2, if_pos h44]
    · rw [if_neg h0, if_neg h2, if_neg h44]
  · rw [if_neg hpar]
    unfold hardResponse
    have h1 : ¬bd.moves.length = 1 := by omega
    have h3 : ¬bd.moves.length = 3 := by omega
    have h44 : ¬bd.moves.length = 4 := by omega
    rw [if_neg h1, if_neg h3, if_neg h44]

theorem c7_late_turns_witness :
    hardMoveSpec "X" turn4Board =
      if turn4Board.moves.length = 4 then .det 4
      else .rnd (available turn4Board) :=
  c7_late_turns turn4Board "X" (by decide) (by decide) (by decide)

/-- C7 counterexample: a board with five moves made, no win and no block
for the mover, and the center still open, on which the Hard strategy
resolves (under an admissible PRNG draw) to space 2, not to the open
center 4. -/
theorem c7_counterexample :
    cellAt cexBoardC7 4 = "4" ∧ 4 ≤ cexBoardC7.moves.length ∧
    findWinningMove cexBoardC7 "O" = -1 ∧
    findBlockingMove cexBoardC7 "O" = -1 ∧
    resolveReq (hardMoveSpec "O" cexBoardC7) 0 = some 2 ∧ (2 : Int) ≠ 4 := by
  refine ⟨rfl, by decide, by decide, by decide, by decide, by decide⟩

/-! ## Strategies choose open spaces (C2) -/

theorem letters_no_digit {a b2 : String} (hla : isUpperLetterStr a = true)
    (hlb : isUpperLetterStr b2 = true) :
    ∀ i, i < 9 → toString i ∉ [a, b2] := by
  intro i hi hc
  have hlet : isUpperLetterStr (toString i) = true := by
    rcases List.mem_cons.mp hc with hc1 | hc2
    · rw [← hc1] at hla; exact hla
    · rw [← List.mem_singleton.mp hc2] at hlb; exact hlb
  interval_cases i <;> exact absurd hlet (by decide)

theorem not_mem_of_bang {l : List String} {c : String}
    (h : (!l.contains c) = true) : c ∉ l := by
  intro hm
  rw [contains_iff_mem'.mpr hm] at h
  exact absurd h (by decide)

theorem bang_of_not_mem {l : List String} {c : String}
    (h : c ∉ l) : (!l.contains c) = true := by
  cases hcon : l.contains c
  · rfl
  · exact absurd (contains_iff_mem'.mp hcon) h

theorem avail_mem {tokens : List String} {bd : Board}
    (htk : bd.tokens = tokens) (hlen : bd.b.length = 9)
    (hgc : goodCells tokens bd) {i : Nat} (hi : i < 9)
    (hopen : cellAt bd i ∉ bd.tokens) : ((i : Nat) : Int) ∈ available bd := by
  have hcell : cellAt bd i = toString i := open_cell_is_digit hgc htk hi hopen
  unfold available
  rw [List.mem_filterMap]
  refine ⟨toString i, ?_, parse_toString i hi⟩
  rw [List.mem_filter]
  constructor
  · rw [← hcell]
    have hlt : i < bd.b.length := by omega
    show bd.b.getD i "" ∈ bd.b
    rw [List.getD_eq_getElem _ _ hlt]
    exact List.getElem_mem hlt
  · exact bang_of_not_mem (hcell ▸ hopen)

theorem avail_ne_nil {tokens : List String} {bd : Board}
    (htk : bd.tokens = tokens) (hlen : bd.b.length = 9)
    (hgc : goodCells tokens bd) (htie : isTie bd = false) :
    available bd ≠ [] := by
  unfold isTie at htie
  rw [List.all_eq_false] at htie
  obtain ⟨c, hc, hnc⟩ := htie
  obtain ⟨i, hilt, hci⟩ := List.mem_iff_getElem.mp hc
  have hi9 : i < 9 := by omega
  have hcell : cellAt bd i = c := by
    show bd.b.getD i "" = c
    rw [List.getD_eq_getElem _ _ hilt, hci]
  have hopen : cellAt bd i ∉ bd.tokens := by
    rw [hcell]
    intro hm
    exact hnc (contains_iff_mem'.mpr hm)
  intro hnil
  have := avail_mem htk hlen hgc hi9 hopen
  rw [hnil] at this
  exact List.not_mem_nil _ this

theorem choosesOpen_det {bd : Board} {s : Int} (h : s ∈ available bd) :
    choosesOpen (.det s) bd :=
  fun _ => ⟨s, rfl, h⟩

theorem choosesOpen_rnd {bd : Board} {l : List Int} (hne : l ≠ [])
    (hsub : ∀ x ∈ l, x ∈ available bd) : choosesOpen (.rnd l) bd := by
  intro e
  have hlen : 0 < l.length := List.length_pos.mpr hne
  have hidx : e % l.length < l.length := Nat.mod_lt _ hlen
  refine ⟨l.getD (e % l.length) 0, ?_, ?_⟩
  · simp only [resolveReq]
    rw [if_neg (by simpa using hne)]
  · apply hsub
    rw [List.getD_eq_getElem _ _ hidx]
    exact List.getElem_mem hidx

theorem findWinningMove_go_open (bd : Board) (tok : String) :
    ∀ l : List ((Nat × Nat) × Nat), (∀ pr ∈ l, pr.2 < 9) →
      findWinningMove.go bd tok l = -1 ∨
      ∃ s3 : Nat, findWinningMove.go bd tok l = (s3 : Int) ∧ s3 < 9 ∧
        cellAt bd s3 ∉ bd.tokens := by
  intro l
  induction l with
  | nil => intro _; exact Or.inl rfl
  | cons pr rest ih =>
    intro hbnd
    obtain ⟨⟨s1, s2⟩, s3⟩ := pr
    by_cases hc : cellAt bd s1 = tok ∧ cellAt bd s2 = tok ∧ cellAt bd s3 ∉ bd.tokens
    · right
      refine ⟨s3, ?_, hbnd _ (List.mem_cons_self _ _), hc.2.2⟩
      simp only [findWinningMove.go, if_pos hc]
    · have hrec := ih (fun q hq => hbnd q (List.mem_cons_of_mem _ hq))
      simpa only [findWinningMove.go, if_neg hc] using hrec

theorem findWinningMove_open {bd : Board} {tok : String}
    (h : findWinningMove bd tok ≠ -1) :
    ∃ s3 : Nat, findWinningMove bd tok = (s3 : Int) ∧ s3 < 9 ∧
      cellAt bd s3 ∉ bd.tokens := by
  rcases findWinningMove_go_open bd tok pairPatterns (by decide) with h1 | h2
  · exact absurd h1 h
  · exact h2

theorem availCorners_sub {tokens : List String} {bd : Board}
    (htk : bd.tokens = tokens) (hlen : bd.b.length = 9)
    (hgc : goodCells tokens bd) :
    ∀ x ∈ (availableCorners bd).map Int.ofNat, x ∈ available bd := by
  intro x hx
  rw [List.mem_map] at hx
  obtain ⟨s, hs, rfl⟩ := hx
  obtain ⟨hsc, hopen⟩ := List.mem_filter.mp hs
  have hs9 : s < 9 := by
    have hd : s = 0 ∨ s = 2 ∨ s = 6 ∨ s = 8 := by simpa [corners] using hsc
    rcases hd with rfl | rfl | rfl | rfl <;> omega
  exact avail_mem htk hlen hgc hs9 (not_mem_of_bang hopen)

theorem availMiddles_sub {tokens : List String} {bd : Board}
    (htk : bd.tokens = tokens) (hlen : bd.b.length = 9)
    (hgc : goodCells tokens bd) :
    ∀ x ∈ (availableMiddles bd).map Int.ofNat, x ∈ available bd := by
  intro x hx
  rw [List.mem_map] at hx
  obtain ⟨s, hs, rfl⟩ := hx
  obtain ⟨hsc, hopen⟩ := List.mem_filter.mp hs
  have hs9 : s < 9 := by
    have hd : s = 1 ∨ s = 3 ∨ s = 5 ∨ s = 7 := by simpa [middles] using hsc
    rcases hd with rfl | rfl | rfl | rfl <;> omega
  exact avail_mem htk hlen hgc hs9 (not_mem_of_bang hopen)

theorem availCorners_ne_nil_of_count {bd : Board}
    (hcnt : occCount bd ≤ 1) (hc4 : cellAt bd 4 ∈ bd.tokens) :
    availableCorners bd ≠ [] := by
  intro hnil
  have h0 : cellAt bd 0 ∈ bd.tokens := by
    by_contra hopen
    have hmem : (0 : Nat) ∈ availableCorners bd := by
      rw [availableCorners, List.mem_filter]
      exact ⟨by decide, bang_of_not_mem hopen⟩
    rw [hnil] at hmem
    exact List.not_mem_nil _ hmem
  have hsub : [0, 4].Sublist (List.range 9) := by decide
  have hfil : List.filter (fun i => decide (cellAt bd i ∈ bd.tokens)) [0, 4] =
      [0, 4] := by
    simp [List.filter_cons, h0, hc4]
  have hle := (hsub.filter (fun i => decide (cellAt bd i ∈ bd.tokens))).length_le
  rw [hfil] at hle
  have h2 : 2 ≤ occCount bd := hle
  omega

theorem availMiddles_ne_nil_of_count {bd : Board}
    (hcnt : occCount bd ≤ 3) : availableMiddles bd ≠ [] := by
  intro hnil
  have hocc : ∀ s ∈ middles, cellAt bd s ∈ bd.tokens := by
    intro s hs
    by_contra hopen
    have hmem : s ∈ availableMiddles bd := by
      rw [availableMiddles, List.mem_filter]
      exact ⟨hs, bang_of_not_mem hopen⟩
    rw [hnil] at hmem
    exact List.not_mem_nil _ hmem
  have hsub : middles.Sublist (List.range 9) := by decide
  have hfil : List.filter (fun i => decide (cellAt bd i ∈ bd.tokens)) middles =
      middles :=
    List.filter_eq_self.mpr (fun s hs => decide_eq_true (hocc s hs))
  have hle := (hsub.filter (fun i => decide (cellAt bd i ∈ bd.tokens))).length_le
  rw [hfil] at hle
  have h4 : 4 ≤ occCount bd := hle
  omega

theorem availCorners_ne_nil_of_zero {bd : Board}
    (hcnt : occCount bd = 0) : availableCorners bd ≠ [] := by
  intro hnil
  have hall : ∀ i ∈ List.range 9,
      ¬(decide (cellAt bd i ∈ bd.tokens) = true) := by
    rw [← List.filter_eq_nil_iff, ← List.length_eq_zero]
    exact hcnt
  have hopen : cellAt bd 0 ∉ bd.tokens := by
    have := hall 0 (by decide)
    simpa using this
  have hmem : (0 : Nat) ∈ availableCorners bd := by
    rw [availableCorners, List.mem_filter]
    exact ⟨by decide, bang_of_not_mem hopen⟩
  rw [hnil] at hmem
  exact List.not_mem_nil _ hmem

/-- C2 (amended): on every legal non-full non-won board with two
distinct single-letter in-play tokens, the Easy and Medium strategies
always resolve to a member of `available()`; the Hard strategy does so
whenever the move count is odd or is 0, 6 or 8 — but its turn-2 and
turn-4 branches (even move counts 2 and 4) can return an occupied space
or the `-1` sentinel, so the original unrestricted claim fails. -/
theorem c2_strategies_choose_open (a b2 t : String) (bd : Board)
    (hla : isUpperLetterStr a = true) (hlb : isUpperLetterStr b2 = true)
    (hr : Reach [a, b2] bd) (ht : t ∈ [a, b2])
    (htie : isTie bd = false) (hover : isOver bd = false) :
    choosesOpen (easyMoveSpec bd) bd ∧
    choosesOpen (mediumMoveSpec t bd) bd ∧
    (bd.moves.length % 2 = 1 ∨ bd.moves.length = 0 ∨ bd.moves.length = 6 ∨
        bd.moves.length = 8 →
      choosesOpen (hardMoveSpec t bd) bd) := by
  have hnd := letters_no_digit hla hlb
  obtain ⟨htk, hlen, hgc, hcount⟩ := reach_inv hnd hr
  have havne : available bd ≠ [] := avail_ne_nil htk hlen hgc htie
  have havsub : ∀ x ∈ available bd, x ∈ available bd := fun x hx => hx
  have hwin : ∀ tok', findWinningMove bd tok' ≠ -1 →
      choosesOpen (.det (findWinningMove bd tok')) bd := by
    intro tok' hne
    obtain ⟨s3, heq, hlt, hopen⟩ := findWinningMove_open hne
    rw [heq]
    exact choosesOpen_det (avail_mem htk hlen hgc hlt hopen)
  have hcenter : cellAt bd 4 = "4" → choosesOpen (.det 4) bd := by
    intro h4
    apply choosesOpen_det
    have hopen : cellAt bd 4 ∉ bd.tokens := by
      rw [h4, htk]
      exact hnd 4 (by omega)
    exact_mod_cast avail_mem htk hlen hgc (show 4 < 9 by omega) hopen
  refine ⟨choosesOpen_rnd havne havsub, ?_, ?_⟩
  · unfold mediumMoveSpec
    by_cases hw : findWinningMove bd t ≠ -1
    · rw [if_pos hw]
      exact hwin t hw
    · rw [if_neg hw]
      by_cases hb : findBlockingMove bd t ≠ -1
      · rw [if_pos hb]
        exact hwin _ hb
      · rw [if_neg hb]
        by_cases h4 : cellAt bd 4 = "4"
        · rw [if_pos h4]
          exact hcenter h4
        · rw [if_neg h4]
          exact choosesOpen_rnd havne havsub
  · intro hturn
    unfold hardMoveSpec
    by_cases hw : findWinningMove bd t ≠ -1
    · rw [if_pos hw]
      exact hwin t hw
    · rw [if_neg hw]
      by_cases hb : findBlockingMove bd t ≠ -1
      · rw [if_pos hb]
        exact hwin _ hb
      · rw [if_neg hb]
        rcases hturn with hodd | h0 | h6 | h8
        · have hpar : ¬bd.moves.length % 2 = 0 := by omega
          rw [if_neg hpar]
          unfold hardResponse
          by_cases h1 : bd.moves.length = 1
          · rw [if_pos h1]
            by_cases h4 : cellAt bd 4 = "4"
            · rw [if_pos h4]
              exact hcenter h4
            · rw [if_neg h4]
              apply choosesOpen_rnd
              · have hc4 : cellAt bd 4 ∈ bd.tokens := by
                  rcases hgc 4 (by omega) with hd | hm
                  · exact absurd hd h4
                  · rw [htk]; exact hm
                have hcnt : occCount bd ≤ 1 := by rw [hcount, h1]
                have hne := availCorners_ne_nil_of_count hcnt hc4
                intro hmapnil
                exact hne (List.map_eq_nil_iff.mp hmapnil)
              · exact availCorners_sub htk hlen hgc
          · rw [if_neg h1]
            by_cases h3 : bd.moves.length = 3
            · rw [if_pos h3]
              show choosesOpen
                (if (keyInCorners (bd.moves.getD 0 ⟨.i 0, ""⟩).space &&
                     keyInCorners (bd.moves.getD 2 ⟨.i 0, ""⟩).space) = true
                 then MoveReq.rnd ((availableMiddles bd).map Int.ofNat)
                 else MoveReq.rnd (available bd)) bd
              split
              · apply choosesOpen_rnd
                · have hcnt : occCount bd ≤ 3 := by rw [hcount, h3]
                  have hne := availMiddles_ne_nil_of_count hcnt
                  intro hmapnil
                  exact hne (List.map_eq_nil_iff.mp hmapnil)
                · exact availMiddles_sub htk hlen hgc
              · exact choosesOpen_rnd havne havsub
            · rw [if_neg h3]
              exact choosesOpen_rnd havne havsub
        · have hpar : bd.moves.length % 2 = 0 := by omega
          rw [if_pos hpar]
          unfold hardFirstTurn
          rw [if_pos h0]
          apply choosesOpen_rnd
          · have hcnt : occCount bd = 0 := by rw [hcount, h0]
            have hne := availCorners_ne_nil_of_zero hcnt
            intro hmapnil
            exact hne (List.map_eq_nil_iff.mp hmapnil)
          · exact availCorners_sub htk hlen hgc
        · have hpar : bd.moves.length % 2 = 0 := by omega
          rw [if_pos hpar]
          unfold hardFirstTurn
          rw [if_neg (by omega), if_neg (by omega), if_neg (by omega)]
          exact choosesOpen_rnd havne havsub
        · have hpar : bd.moves.length % 2 = 0 := by omega
          rw [if_pos hpar]
          unfold hardFirstTurn
          rw [if_neg (by omega), if_neg (by omega), if_neg (by omega)]
          exact choosesOpen_rnd havne havsub

theorem c2_strategies_choose_open_witness :
    choosesOpen (easyMoveSpec (initBoard ["X", "O"])) (initBoard ["X", "O"]) ∧
    choosesOpen (mediumMoveSpec "X" (initBoard ["X", "O"])) (initBoard ["X", "O"]) ∧
    ((initBoard ["X", "O"]).moves.length % 2 = 1 ∨
        (initBoard ["X", "O"]).moves.length = 0 ∨
        (initBoard ["X", "O"]).moves.length = 6 ∨
        (initBoard ["X", "O"]).moves.length = 8 →
      choosesOpen (hardMoveSpec "X" (initBoard ["X", "O"])) (initBoard ["X", "O"])) :=
  c2_strategies_choose_open "X" "O" "X" (initBoard ["X", "O"])
    (by decide) (by decide) Reach.init (by decide) (by decide) (by decide)

/-- C2 counterexample: on the legal, non-full, non-won board with X at 0
and O at 2 and the Hard player (token X) to move, the strategy
deterministically returns space 2, which is occupied by the opponent —
not a member of `available()` — so the subsequent `place` raises. -/
theorem c2_counterexample :
    Reach ["X", "O"] cexBoardC2 ∧ isTie cexBoardC2 = false ∧
    isOver cexBoardC2 = false ∧ hardMoveSpec "X" cexBoardC2 = .det 2 ∧
    (2 : Int) ∉ available cexBoardC2 ∧
    (setitem cexBoardC2 (.i 2) "X").1 = some .spotTakenByOpponent := by
  refine ⟨?_, by decide, by decide, by decide, by decide, by decide⟩
  have h1 : setitem (initBoard ["X", "O"]) (.i 0) "X" = (none, midBoardC2) := by
    decide
  have h2 : setitem midBoardC2 (.i 2) "O" = (none, cexBoardC2) := by
    decide
  exact Reach.step (.i 2) (Reach.step (.i 0) Reach.init (by decide) h1)
    (by decide) h2

/-! ## Runs of possibly-failing `place` requests (C8) -/

theorem runReqs_append (l1 l2 : List (Key × String)) (bd : Board) :
    runReqs bd (l1 ++ l2) = runReqs (runReqs bd l1) l2 := by
  induction l1 generalizing bd with
  | nil => rfl
  | cons r rest ih =>
    obtain ⟨k, t⟩ := r
    simp only [List.cons_append, runReqs]
    exact ih _

theorem runReqs_tokens (l : List (Key × String)) (bd : Board) :
    (runReqs bd l).tokens = bd.tokens := by
  induction l generalizing bd with
  | nil => rfl
  | cons r rest ih =>
    obtain ⟨k, t⟩ := r
    simp only [runReqs]
    rw [ih, setitem_tokens]

theorem runReqs_length (l : List (Key × String)) (bd : Board) :
    (runReqs bd l).b.length = bd.b.length := by
  induction l generalizing bd with
  | nil => rfl
  | cons r rest ih =>
    obtain ⟨k, t⟩ := r
    simp only [runReqs]
    rw [ih, setitem_length]

theorem runReqs_keeps_occupied (l : List (Key × String)) (bd : Board) (i : Nat)
    (hocc : cellAt bd i ∈ bd.tokens) :
    cellAt (runReqs bd l) i = cellAt bd i := by
  induction l generalizing bd with
  | nil => rfl
  | cons r rest ih =>
    obtain ⟨k, t⟩ := r
    simp only [runReqs]
    have hkeep := setitem_keeps_occupied bd k t i hocc
    have hocc' : cellAt (setitem bd k t).2 i ∈ (setitem bd k t).2.tokens := by
      rw [hkeep, setitem_tokens]
      exact hocc
    rw [ih _ hocc', hkeep]

theorem runReqs_moves (l : List (Key × String)) (bd : Board) :
    (runReqs bd l).moves = bd.moves ++ okMoves bd l := by
  induction l generalizing bd with
  | nil => simp [runReqs, okMoves]
  | cons r rest ih =>
    obtain ⟨k, t⟩ := r
    rcases hres : setitem bd k t with ⟨err, bd1⟩
    cases err with
    | none =>
      have hmv : bd1.moves = bd.moves ++ [⟨k, t⟩] := by
        obtain ⟨n, j, _, _, _, _, hb'⟩ := setitem_ok hres
        rw [hb']
      have hsnd : (setitem bd k t).2 = bd1 := by rw [hres]
      simp only [runReqs, okMoves]
      rw [hres]
      simp only [hsnd]
      rw [ih bd1, hmv]
      simp
    | some e =>
      have hsnd : (setitem bd k t).2 = bd := by
        rcases setitem_snd_eq_or_ok bd k t with h | h
        · exact h
        · rw [hres] at h
          exact absurd (congrArg Prod.fst h) (by simp)
      have hbd : bd1 = bd := by
        rw [hres] at hsnd
        exact hsnd
      subst hbd
      simp only [runReqs, okMoves]
      rw [hres]
      exact ih bd1

theorem occCount_init {tokens : List String}
    (hnd : ∀ i, i < 9 → toString i ∉ tokens) :
    occCount (initBoard tokens) = 0 := by
  show (List.filter _ (List.range 9)).length = 0
  rw [List.length_eq_zero, List.filter_eq_nil_iff]
  intro i hir
  have hi : i < 9 := List.mem_range.mp hir
  have hcell : cellAt (initBoard tokens) i = toString i := by
    interval_cases i <;> rfl
  simp only [hcell, decide_eq_true_eq]
  exact hnd i hi

theorem setitem_ok_count {bd : Board} {k : Key} {t : String} {bd1 : Board}
    (hlen : bd.b.length = 9) (hset : setitem bd k t = (none, bd1))
    (ht : t ∈ bd.tokens) : occCount bd1 = occCount bd + 1 := by
  obtain ⟨n, j, hn, hj, hne, hnotin, hb'⟩ := setitem_ok hset
  have hjlt : j < 9 := hlen ▸ pyNormIdx_lt hj
  have hcells : ∀ i, i < 9 → cellAt bd1 i = if i = j then t else cellAt bd i := by
    intro i hi
    rw [hb']
    show (bd.b.set j t).getD i "" = _
    by_cases hij : i = j
    · subst hij
      have hlt : i < (bd.b.set i t).length := by
        rw [List.length_set, hlen]; exact hi
      rw [List.getD_eq_getElem _ _ hlt, List.getElem_set_self hlt, if_pos rfl]
    · rw [List.getD_eq_getElem?_getD, List.getElem?_set_ne (Ne.symm hij),
        ← List.getD_eq_getElem?_getD, if_neg hij]
      rfl
  have htoks' : bd1.tokens = bd.tokens := by rw [hb']
  show (List.filter _ (List.range 9)).length =
    (List.filter _ (List.range 9)).length + 1
  apply filter_length_flip (List.range 9) (List.nodup_range 9)
    (List.mem_range.mpr hjlt)
  · intro x hx hxj
    have hxlt : x < 9 := List.mem_range.mp hx
    rw [htoks', hcells x hxlt, if_neg hxj]
  · rw [decide_eq_false_iff_not]
    exact hnotin
  · rw [htoks', hcells j hjlt, if_pos rfl]
    exact decide_eq_true ht

theorem runReqs_count (l : List (Key × String)) (bd : Board)
    (hlen : bd.b.length = 9) (hreq : ∀ r ∈ l, r.2 ∈ bd.tokens) :
    occCount (runReqs bd l) = occCount bd + (okMoves bd l).length := by
  induction l generalizing bd with
  | nil => simp [runReqs, okMoves]
  | cons r rest ih =>
    obtain ⟨k, t⟩ := r
    rcases hres : setitem bd k t with ⟨err, bd1⟩
    have hsnd : (setitem bd k t).2 = bd1 := by rw [hres]
    cases err with
    | none =>
      have hlen1 : bd1.b.length = 9 := by rw [← hsnd, setitem_length]; exact hlen
      have hreq1 : ∀ r ∈ rest, r.2 ∈ bd1.tokens := by
        intro r hr
        rw [← hsnd, setitem_tokens]
        exact hreq r (List.mem_cons_of_mem _ hr)
      have hcnt := setitem_ok_count hlen hres
        (hreq (k, t) (List.mem_cons_self _ _))
      simp only [runReqs, okMoves]
      rw [hres]
      simp only [hsnd]
      rw [ih bd1 hlen1 hreq1, hcnt]
      simp
      omega
    | some e =>
      have hsnd' : (setitem bd k t).2 = bd := by
        rcases setitem_snd_eq_or_ok bd k t with h | h
        · exact h
        · rw [hres] at h
          exact absurd (congrArg Prod.fst h) (by simp)
      have hbd : bd1 = bd := by
        rw [hres] at hsnd'
        exact hsnd'
      subst hbd
      have hreq1 : ∀ r ∈ rest, r.2 ∈ bd1.tokens :=
        fun r hr => hreq r (List.mem_cons_of_mem _ hr)
      simp only [runReqs, okMoves]
      rw [hres]
      exact ih bd1 hlen hreq1

/-- C8: starting from a fresh board and applying any sequence of
(possibly failing) `place` requests with in-play tokens: every occupied
cell keeps its value through the rest of the run (a space goes from
unoccupied to occupied at most once and is never cleared), the length of
the move history always equals the number of occupied cells, and the
move history is exactly the successful requests in temporal order. -/
theorem c8_run_invariants (a b2 : String)
    (hla : isUpperLetterStr a = true) (hlb : isUpperLetterStr b2 = true)
    (reqs : List (Key × String)) (hreq : ∀ r ∈ reqs, r.2 ∈ [a, b2]) :
    (∀ reqs1 reqs2, reqs = reqs1 ++ reqs2 → ∀ i,
      cellAt (runReqs (initBoard [a, b2]) reqs1) i ∈ [a, b2] →
      cellAt (runReqs (initBoard [a, b2]) reqs) i =
        cellAt (runReqs (initBoard [a, b2]) reqs1) i) ∧
    occCount (runReqs (initBoard [a, b2]) reqs) =
      (runReqs (initBoard [a, b2]) reqs).moves.length ∧
    (runReqs (initBoard [a, b2]) reqs).moves = okMoves (initBoard [a, b2]) reqs := by
  have hnd := letters_no_digit hla hlb
  have hmoves := runReqs_moves reqs (initBoard [a, b2])
  refine ⟨?_, ?_, ?_⟩
  · intro reqs1 reqs2 hsplit i hocc
    subst hsplit
    rw [runReqs_append]
    apply runReqs_keeps_occupied
    rw [runReqs_tokens]
    exact hocc
  · rw [runReqs_count reqs (initBoard [a, b2]) rfl hreq, occCount_init hnd,
      hmoves]
    simp [initBoard]
  · simpa using hmoves

theorem c8_run_invariants_witness :
    (∀ reqs1 reqs2, [((Key.i 0), "X")] = reqs1 ++ reqs2 → ∀ i,
      cellAt (runReqs (initBoard ["X", "O"]) reqs1) i ∈ ["X", "O"] →
      cellAt (runReqs (initBoard ["X", "O"]) [((Key.i 0), "X")]) i =
        cellAt (runReqs (initBoard ["X", "O"]) reqs1) i) ∧
    occCount (runReqs (initBoard ["X", "O"]) [((Key.i 0), "X")]) =
      (runReqs (initBoard ["X", "O"]) [((Key.i 0), "X")]).moves.length ∧
    (runReqs (initBoard ["X", "O"]) [((Key.i 0), "X")]).moves =
      okMoves (initBoard ["X", "O"]) [((Key.i 0), "X")] :=
  c8_run_invariants "X" "O" (by decide) (by decide) [((Key.i 0), "X")]
    (by decide)

end TicTacToe
